import Mathlib

/-!
Shallow embedding of the spike-bloom reconciliation simulator (src/src/lib.rs).

Modelling conventions:
* A Rust Hash (Arc of 32 bytes) is a list of byte values; well-formedness
  (length 32, bytes below 256) is a separate predicate.
* A Rust HashSet of hashes is a duplicate-free list: the list order models the
  set's iteration order, which the source observes (hash_of_hashes concatenates
  members in iteration order).  HashSet::insert appends when the element is
  absent; HashSet equality compares length and membership, as in Rust.
* Functions that call .unwrap() or assert! are embedded with Option results:
  none models a panic.
* Randomness (rand_hash, shuffling) is determinized into explicit oracle
  parameters; theorems quantify over all oracles.
* The bloom filter crate sizes its bitmap with floating-point arithmetic and
  checks membership with SipHash; it is abstracted as a parameter providing a
  membership test and a bitmap byte length, so theorems hold for every
  instantiation, including the concrete one.
* blake2b with 32-byte output (the gen_hash primitive) is embedded concretely,
  following RFC 7693.
-/

abbrev Hash := List Nat

abbrev Map := List Hash

abbrev Node := List Map

abbrev Network := List Node

/-- Well-formed digest: 32 bytes, each below 256. -/
def Hash.WF (h : Hash) : Prop := h.length = 32 ∧ ∀ b ∈ h, b < 256

/-- HashSet::insert — append the element when it is not yet present. -/
def insertH (m : Map) (h : Hash) : Map := if h ∈ m then m else m ++ [h]

/-- Rust HashSet equality: same length and every element of the left side is
contained in the right side. -/
def mapEq (a b : Map) : Bool := a.length == b.length && a.all (fun h => b.contains h)

/-- is_node_consistent: unwraps the first map (none on an empty Node), then
checks every map of the Node equals it. -/
def is_node_consistent (node : Node) : Option Bool :=
  match node.head? with
  | none => none
  | some first_map => some (node.all (fun m => mapEq first_map m))

/-- is_network_consistent: unwraps the first map of the first node (none when
the Network, or its first Node, is empty), then checks every map of every node
equals it. -/
def is_network_consistent (network : Network) : Option Bool :=
  match network.head? with
  | none => none
  | some n0 =>
    match n0.head? with
    | none => none
    | some first_map =>
      some (network.all (fun node => node.all (fun m => mapEq first_map m)))

/-- The uber_set built by sync_node: drain every map of the node into one set. -/
def uber_set (node : Node) : Map :=
  node.foldl (fun acc m => m.foldl insertH acc) []

/-- sync_node: drain all maps into uber_set, then assign a clone of it to every
slot. -/
def sync_node (node : Node) : Node := node.map (fun _ => uber_set node)

/-- sync_network: sync each node individually. -/
def sync_network : Network → Network
  | [] => []
  | n :: ns => sync_node n :: sync_network ns

/-- gen_map: insert data_count hashes drawn from the random oracle into an
initially empty set. -/
def gen_map (rand : Nat → Hash) (data_count : Nat) : Map :=
  (List.range data_count).foldl (fun out i => insertH out (rand i)) []

/-- gen_node: net_fact freshly generated maps. -/
def gen_node (rand : Nat → Nat → Hash) (data_count net_fact : Nat) : Node :=
  (List.range net_fact).map (fun i => gen_map (rand i) data_count)

/-- gen_network: net_fact freshly generated nodes. -/
def gen_network (rand : Nat → Nat → Nat → Hash) (data_count net_fact : Nat) :
    Network :=
  (List.range net_fact).map (fun i => gen_node (rand i) data_count net_fact)

/- ### blake2b-256 (RFC 7693), the gen_hash primitive -/

/-- Addition on 64-bit words. -/
def add64 (a b : Nat) : Nat := (a + b) % 18446744073709551616

/-- Right rotation on 64-bit words. -/
def rotr64 (x n : Nat) : Nat :=
  ((x >>> n) ||| (x <<< (64 - n))) % 18446744073709551616

/-- blake2b initialization vector. -/
def blakeIV : List Nat :=
  [0x6a09e667f3bcc908, 0xbb67ae8584caa73b, 0x3c6ef372fe94f82b,
   0xa54ff53a5f1d36f1, 0x510e527fade682d1, 0x9b05688c2b3e6c1f,
   0x1f83d9abfb41bd6b, 0x5be0cd19137e2179]

/-- blake2b message schedule permutations. -/
def blakeSigma : List (List Nat) :=
  [[0, 1, 2, 3, 4, 5, 6, 7, 8, 9, 10, 11, 12, 13, 14, 15],
   [14, 10, 4, 8, 9, 15, 13, 6, 1, 12, 0, 2, 11, 7, 5, 3],
   [11, 8, 12, 0, 5, 2, 15, 13, 10, 14, 3, 6, 7, 1, 9, 4],
   [7, 9, 3, 1, 13, 12, 11, 14, 2, 6, 5, 10, 4, 0, 15, 8],
   [9, 0, 5, 7, 2, 4, 10, 15, 14, 1, 11, 12, 6, 8, 3, 13],
   [2, 12, 6, 10, 0, 11, 8, 3, 4, 13, 7, 5, 15, 14, 1, 9],
   [12, 5, 1, 15, 14, 13, 4, 10, 0, 7, 6, 3, 9, 2, 8, 11],
   [13, 11, 7, 14, 12, 1, 3, 9, 5, 0, 15, 4, 8, 6, 2, 10],
   [6, 15, 14, 9, 11, 3, 0, 8, 12, 2, 13, 7, 1, 4, 10, 5],
   [10, 2, 8, 4, 7, 6, 1, 5, 15, 11, 9, 14, 3, 12, 13, 0]]

/-- The blake2b G mixing function acting on the 16-word work vector. -/
def gMix (v : List Nat) (a b c d x y : Nat) : List Nat :=
  let va := add64 (add64 (v.get! a) (v.get! b)) x
  let vd := rotr64 ((v.get! d) ^^^ va) 32
  let vc := add64 (v.get! c) vd
  let vb := rotr64 ((v.get! b) ^^^ vc) 24
  let va2 := add64 (add64 va vb) y
  let vd2 := rotr64 (vd ^^^ va2) 16
  let vc2 := add64 vc vd2
  let vb2 := rotr64 (vb ^^^ vc2) 63
  (((v.set a va2).set b vb2).set c vc2).set d vd2

/-- One blake2b round: eight G applications scheduled by sigma. -/
def blakeRound (m v : List Nat) (r : Nat) : List Nat :=
  let s := blakeSigma.get! (r % 10)
  let v1 := gMix v 0 4 8 12 (m.get! (s.get! 0)) (m.get! (s.get! 1))
  let v2 := gMix v1 1 5 9 13 (m.get! (s.get! 2)) (m.get! (s.get! 3))
  let v3 := gMix v2 2 6 10 14 (m.get! (s.get! 4)) (m.get! (s.get! 5))
  let v4 := gMix v3 3 7 11 15 (m.get! (s.get! 6)) (m.get! (s.get! 7))
  let v5 := gMix v4 0 5 10 15 (m.get! (s.get! 8)) (m.get! (s.get! 9))
  let v6 := gMix v5 1 6 11 12 (m.get! (s.get! 10)) (m.get! (s.get! 11))
  let v7 := gMix v6 2 7 8 13 (m.get! (s.get! 12)) (m.get! (s.get! 13))
  gMix v7 3 4 9 14 (m.get! (s.get! 14)) (m.get! (s.get! 15))

/-- blake2b compression function F. -/
def blakeCompress (h m : List Nat) (t : Nat) (last : Bool) : List Nat :=
  let v0 := h ++ blakeIV
  let v1 := v0.set 12 ((v0.get! 12) ^^^ (t % 18446744073709551616))
  let v2 := if last then v1.set 14 ((v1.get! 14) ^^^ 18446744073709551615) else v1
  let vf := (List.range 12).foldl (fun v r => blakeRound m v r) v2
  (List.range 8).map (fun i => (h.get! i) ^^^ (vf.get! i) ^^^ (vf.get! (i + 8)))

/-- Little-endian value of a byte list. -/
def le64 (bytes : List Nat) : Nat := bytes.foldr (fun b acc => acc * 256 + b) 0

/-- The 16 message words of one 128-byte block. -/
def blockWords (block : List Nat) : List Nat :=
  (List.range 16).map (fun i => le64 ((block.drop (8 * i)).take 8))

/-- Number of 128-byte blocks a message occupies; the empty message still
occupies one (all-zero) block. -/
def numBlocks (len : Nat) : Nat := max 1 ((len + 127) / 128)

/-- Split a message into zero-padded 128-byte blocks; the empty message yields
one all-zero block. -/
def toBlocks (d : List Nat) : List (List Nat) :=
  (List.range (numBlocks d.length)).map
    (fun i => (d.drop (128 * i)).take 128
      ++ List.replicate (128 - ((d.drop (128 * i)).take 128).length) 0)

/-- blake2b with 32-byte digest: parameter block 0x01010020 folded into the
first state word, sequential compression, little-endian serialization of the
first four state words. -/
def blake2b256 (d : List Nat) : Hash :=
  let h0 := blakeIV.set 0 ((blakeIV.get! 0) ^^^ 0x01010020)
  let blocks := toBlocks d
  let n := blocks.length
  let hf := (List.range n).foldl
    (fun h i =>
      let t := if i + 1 = n then d.length else (i + 1) * 128
      blakeCompress h (blockWords (blocks.get! i)) t (i + 1 == n)) h0
  (List.range 32).map (fun i => ((hf.get! (i / 8)) >>> (8 * (i % 8))) % 256)

/-- gen_hash: the 32-byte blake2b digest of a byte slice. -/
def gen_hash (d : List Nat) : Hash := blake2b256 d

/-- hash_of_hashes: concatenate the hashes in iteration order and digest the
result. -/
def hash_of_hashes (hashes : List Hash) : Hash :=
  gen_hash (hashes.foldl (fun acc h => acc ++ h) [])

/- ### Pairwise reconciliation -/

abbrev BytesTransferred := Nat

/-- Abstraction of the bloom filter built by gen_bloom_for_map: a membership
test (SipHash-based in the source) and the byte length of the underlying
bitmap (sized with floating-point arithmetic in the source).  Theorems
quantify over every such filter. -/
structure BloomModel where
  check : Hash → Bool
  bitmapLen : Nat

/-- The fixed per-filter overhead charged by bloom_filter_sync_two_maps:
8 bytes bitmap-bit count, 4 bytes k_num, 8 * 4 bytes sip keys. -/
def BLOOM_OVERHEAD : BytesTransferred := 8 + 4 + 8 * 4

/-- One iteration of a bloom transfer loop: when the peer filter does not
recognize the hash, charge its byte length and insert it. -/
def insertCheckStep (check : Hash → Bool) (acc : Map × BytesTransferred)
    (h : Hash) : Map × BytesTransferred :=
  if check h then acc else (insertH acc.1 h, acc.2 + h.length)

/-- bloom_filter_sync_two_maps: build a filter per side, stream map1 against
map2's filter inserting misses into map2, then stream the updated map2 against
map1's filter inserting misses into map1, and charge both filters' overheads
and bitmap lengths.  Returns (updated map1, updated map2, bytes transferred). -/
def bloom_filter_sync_two_maps (genBloom : Map → BloomModel) (map1 map2 : Map) :
    Map × Map × BytesTransferred :=
  let bloom1 := genBloom map1
  let bloom2 := genBloom map2
  let r1 := map1.foldl (insertCheckStep bloom2.check) (map2, 0)
  let r2 := r1.1.foldl (insertCheckStep bloom1.check) (map1, 0)
  (r2.1, r1.1,
    r1.2 + r2.2 + (BLOOM_OVERHEAD + bloom1.bitmapLen)
      + (BLOOM_OVERHEAD + bloom2.bitmapLen))

/-- One iteration of a rehash transfer loop: when the hash is absent from the
receiving set, charge its byte length and append it. -/
def insertMissingStep (acc : Map × BytesTransferred) (h : Hash) :
    Map × BytesTransferred :=
  if h ∈ acc.1 then acc else (acc.1 ++ [h], acc.2 + h.length)

/-- rehash_filter_sync_two_maps: exchange the two aggregate digests (64 bytes);
when they differ, side 1 sends its full list (32 bytes per item), side 2
requests the items it misses, then forwards the items side 1 misses.
Returns (updated map1, updated map2, bytes transferred). -/
def rehash_filter_sync_two_maps (map1 map2 : Map) :
    Map × Map × BytesTransferred :=
  let hash1 := hash_of_hashes map1
  let hash2 := hash_of_hashes map2
  if hash1 = hash2 then (map1, map2, 32 + 32)
  else
    let r1 := map1.foldl insertMissingStep (map2, 0)
    let r2 := r1.1.foldl insertMissingStep (map1, 0)
    (r2.1, r1.1, 32 + 32 + map1.length * 32 + r1.2 + r2.2)

/- ### Hub pairing protocol -/

/-- The chain of pairwise calls run by the hub protocols on the first maps of
the non-hub nodes, threading the hub's first map through as the right-hand
argument; returns the updated non-hub maps, the final hub map, and the list of
pairwise byte costs. -/
def pairChain (pair : Map → Map → Map × Map × BytesTransferred) :
    List Map → Map → List Map × Map × List BytesTransferred
  | [], fm => ([], fm, [])
  | m :: ms, fm =>
    let r := pair m fm
    let rest := pairChain pair ms r.2.1
    (r.1 :: rest.1, rest.2.1, r.2.2 :: rest.2.2)

/-- The loop body of the hub protocols over the non-hub nodes: unwrap each
node's first map (none models the unwrap panic on an empty node), reconcile it
against the threaded hub map, and accumulate byte costs. -/
def syncOthersAux (pair : Map → Map → Map × Map × BytesTransferred) :
    List Node → Map → Option (List Node × Map × BytesTransferred)
  | [], fm => some ([], fm, 0)
  | node :: ns, fm =>
    match node with
    | [] => none
    | m :: mt =>
      let r := pair m fm
      match syncOthersAux pair ns r.2.1 with
      | none => none
      | some (ns2, fm2, b) => some ((r.1 :: mt) :: ns2, fm2, r.2.2 + b)

/-- The shared shape of bloom_filter_sync_first_map_to_others and
rehash_filter_sync_first_map_to_others: remove the first node, reconcile every
remaining node's first map against the hub's first map (hub on the right),
push the hub node back at the end; none models the panics on an empty network
or an empty node. -/
def sync_first_map_to_others (pair : Map → Map → Map × Map × BytesTransferred)
    (network : Network) : Option (Network × BytesTransferred) :=
  match network with
  | [] => none
  | firstNode :: rest =>
    match firstNode with
    | [] => none
    | fm :: fnTail =>
      match syncOthersAux pair rest fm with
      | none => none
      | some (rest2, fm2, b) => some (rest2 ++ [fm2 :: fnTail], b)

/-- bloom_filter_sync_first_map_to_others, for a given filter generator. -/
def bloom_filter_sync_first_map_to_others (genBloom : Map → BloomModel)
    (network : Network) : Option (Network × BytesTransferred) :=
  sync_first_map_to_others (bloom_filter_sync_two_maps genBloom) network

/-- rehash_filter_sync_first_map_to_others. -/
def rehash_filter_sync_first_map_to_others (network : Network) :
    Option (Network × BytesTransferred) :=
  sync_first_map_to_others rehash_filter_sync_two_maps network

/- ### The convergence runner (test_run) -/

/-- The per-node consolidation prologue of test_run: for each node assert it is
not yet consistent, sync it, and assert it became consistent; none models any
assertion failure or unwrap panic. -/
def consolidate_nodes : Network → Option Network
  | [] => some []
  | node :: rest =>
    match is_node_consistent node with
    | none => none
    | some true => none
    | some false =>
      let node2 := sync_node node
      match is_node_consistent node2 with
      | none => none
      | some false => none
      | some true =>
        match consolidate_nodes rest with
        | none => none
        | some rest2 => some (node2 :: rest2)

/-- The pre-loop phase of test_run: assert the fresh network is inconsistent,
consolidate every node with its defensive checks, then assert the network is
still inconsistent; none models a panic. -/
def test_run_setup (network : Network) : Option Network :=
  match is_network_consistent network with
  | none => none
  | some true => none
  | some false =>
    match consolidate_nodes network with
    | none => none
    | some net2 =>
      match is_network_consistent net2 with
      | none => none
      | some true => none
      | some false => some net2

/-- The convergence loop of test_run, with fuel standing in for the unbounded
Rust loop: each round increments the counter, shuffles (modelled by an oracle
indexed by the round number), runs the network sync function, consolidates
every node, and exits when the network is consistent.  none models running out
of fuel or a panic. -/
def run_loop (shuffleO : Nat → Network → Network)
    (syncFn : Network → Option (Network × BytesTransferred)) :
    Nat → Nat → BytesTransferred → Network →
    Option (Nat × BytesTransferred × Network)
  | 0, _, _, _ => none
  | fuel + 1, count, byteTx, net =>
    let net1 := shuffleO (count + 1) net
    match syncFn net1 with
    | none => none
    | some (net2, b) =>
      let net3 := sync_network net2
      match is_network_consistent net3 with
      | none => none
      | some true => some (count + 1, byteTx + b, net3)
      | some false => run_loop shuffleO syncFn fuel (count + 1) (byteTx + b) net3

/-- test_run on an already generated network: the assertion prologue followed
by the convergence loop; the elapsed-time output is not modelled.  Returns the
round count, total bytes transferred, and the final network. -/
def test_run (network : Network) (shuffleO : Nat → Network → Network)
    (syncFn : Network → Option (Network × BytesTransferred)) (fuel : Nat) :
    Option (Nat × BytesTransferred × Network) :=
  match test_run_setup network with
  | none => none
  | some net2 => run_loop shuffleO syncFn fuel 0 0 net2

/- ### Basic lemmas about the set operations -/

theorem mem_insertH {m : Map} {g a : Hash} :
    a ∈ insertH m g ↔ a ∈ m ∨ a = g := by
  unfold insertH
  by_cases hg : g ∈ m
  · simp only [hg, if_true]
    constructor
    · exact Or.inl
    · rintro (ha | rfl)
      · exact ha
      · exact hg
  · simp [hg]

theorem nodup_insertH {m : Map} {g : Hash} (hm : m.Nodup) :
    (insertH m g).Nodup := by
  unfold insertH
  by_cases hg : g ∈ m
  · rw [if_pos hg]; exact hm
  · rw [if_neg hg]
    simp [List.nodup_append, hm, hg]

theorem mem_foldl_insertH :
    ∀ (l : List Hash) (m : Map) (a : Hash),
      a ∈ l.foldl insertH m ↔ a ∈ m ∨ a ∈ l := by
  intro l
  induction l with
  | nil => simp
  | cons g t ih =>
    intro m a
    simp only [List.foldl_cons, ih, mem_insertH, List.mem_cons]
    tauto

theorem mem_foldl_insertCheckStep (c : Hash → Bool) :
    ∀ (l : List Hash) (m : Map) (b : Nat) (a : Hash),
      a ∈ (l.foldl (insertCheckStep c) (m, b)).1 ↔
        a ∈ m ∨ (a ∈ l ∧ c a = false) := by
  intro l
  induction l with
  | nil => simp
  | cons g t ih =>
    intro m b a
    simp only [List.foldl_cons, insertCheckStep]
    by_cases hc : c g = true
    · rw [if_pos hc, ih]
      simp only [List.mem_cons]
      constructor
      · rintro (ha | ⟨hat, hca⟩)
        · exact Or.inl ha
        · exact Or.inr ⟨Or.inr hat, hca⟩
      · rintro (ha | ⟨(rfl | hat), hca⟩)
        · exact Or.inl ha
        · rw [hc] at hca; cases hca
        · exact Or.inr ⟨hat, hca⟩
    · have hcg : c g = false := by simpa using hc
      rw [if_neg hc, ih]
      simp only [mem_insertH, List.mem_cons]
      constructor
      · rintro ((ha | rfl) | ⟨hat, hca⟩)
        · exact Or.inl ha
        · exact Or.inr ⟨Or.inl rfl, hcg⟩
        · exact Or.inr ⟨Or.inr hat, hca⟩
      · rintro (ha | ⟨(rfl | hat), hca⟩)
        · exact Or.inl (Or.inl ha)
        · exact Or.inl (Or.inr rfl)
        · exact Or.inr ⟨hat, hca⟩

theorem mem_foldl_insertMissingStep :
    ∀ (l : List Hash) (m : Map) (b : Nat) (a : Hash),
      a ∈ (l.foldl insertMissingStep (m, b)).1 ↔ a ∈ m ∨ a ∈ l := by
  intro l
  induction l with
  | nil => simp
  | cons g t ih =>
    intro m b a
    simp only [List.foldl_cons, insertMissingStep]
    by_cases hg : g ∈ m
    · rw [if_pos hg, ih]
      simp only [List.mem_cons]
      constructor
      · rintro (ha | hat)
        · exact Or.inl ha
        · exact Or.inr (Or.inr hat)
      · rintro (ha | (rfl | hat))
        · exact Or.inl ha
        · exact Or.inl hg
        · exact Or.inr hat
    · rw [if_neg hg, ih]
      simp only [List.mem_append, List.mem_singleton, List.mem_cons]
      tauto

set_option maxHeartbeats 1000000 in
/-- C1: for both pairwise reconciliation operations — bloom-filter based (for
every filter instantiation) and digest based — each side only grows, every
inserted digest came from the other side, and the union of the two ReplicaSets
after the call equals the union before the call. -/
theorem pairwise_sync_union_preserved :
    (∀ (genBloom : Map → BloomModel) (map1 map2 : Map),
      (∀ h, h ∈ map1 → h ∈ (bloom_filter_sync_two_maps genBloom map1 map2).1) ∧
      (∀ h, h ∈ map2 →
        h ∈ (bloom_filter_sync_two_maps genBloom map1 map2).2.1) ∧
      (∀ h, (h ∈ (bloom_filter_sync_two_maps genBloom map1 map2).1 ∨
             h ∈ (bloom_filter_sync_two_maps genBloom map1 map2).2.1) ↔
            (h ∈ map1 ∨ h ∈ map2))) ∧
    (∀ map1 map2 : Map,
      (∀ h, h ∈ map1 → h ∈ (rehash_filter_sync_two_maps map1 map2).1) ∧
      (∀ h, h ∈ map2 → h ∈ (rehash_filter_sync_two_maps map1 map2).2.1) ∧
      (∀ h, (h ∈ (rehash_filter_sync_two_maps map1 map2).1 ∨
             h ∈ (rehash_filter_sync_two_maps map1 map2).2.1) ↔
            (h ∈ map1 ∨ h ∈ map2))) := by
  constructor
  · intro genBloom map1 map2
    simp only [bloom_filter_sync_two_maps, mem_foldl_insertCheckStep]
    refine ⟨fun h hh => Or.inl hh, fun h hh => Or.inl hh, fun h => ?_⟩
    constructor
    · rintro ((hh | ⟨hh, _⟩) | (hh | ⟨hh, _⟩))
      · exact Or.inl hh
      · rcases hh with hh | ⟨hh, _⟩
        · exact Or.inr hh
        · exact Or.inl hh
      · exact Or.inr hh
      · exact Or.inl hh
    · rintro (hh | hh)
      · exact Or.inl (Or.inl hh)
      · exact Or.inr (Or.inl hh)
  · intro map1 map2
    simp only [rehash_filter_sync_two_maps]
    by_cases heq : hash_of_hashes map1 = hash_of_hashes map2
    · rw [if_pos heq]
      exact ⟨fun h hh => hh, fun h hh => hh, fun h => Iff.rfl⟩
    · rw [if_neg heq]
      dsimp only
      simp only [mem_foldl_insertMissingStep]
      refine ⟨fun h hh => Or.inl hh, fun h hh => Or.inl hh, fun h => ?_⟩
      constructor
      · rintro ((hh | (hh | hh)) | (hh | hh)) <;>
          [exact Or.inl hh; exact Or.inr hh; exact Or.inl hh; exact Or.inr hh;
           exact Or.inl hh]
      · rintro (hh | hh)
        · exact Or.inl (Or.inl hh)
        · exact Or.inr (Or.inl hh)

theorem mem_foldl_drain :
    ∀ (node : Node) (acc : Map) (a : Hash),
      a ∈ node.foldl (fun acc m => m.foldl insertH acc) acc ↔
        a ∈ acc ∨ ∃ m ∈ node, a ∈ m := by
  intro node
  induction node with
  | nil => simp
  | cons m ms ih =>
    intro acc a
    simp only [List.foldl_cons, ih, mem_foldl_insertH, List.mem_cons,
      exists_eq_or_imp]
    tauto

theorem mem_uber_set {node : Node} {a : Hash} :
    a ∈ uber_set node ↔ ∃ m ∈ node, a ∈ m := by
  unfold uber_set
  rw [mem_foldl_drain]
  simp

theorem mapEq_refl (m : Map) : mapEq m m = true := by
  simp [mapEq, List.all_eq_true, List.elem_iff]

theorem is_node_consistent_cons (m : Map) (ms : List Map) :
    is_node_consistent (m :: ms) = some ((m :: ms).all (mapEq m)) := rfl

/-- C2: consolidating a non-empty Node makes every ReplicaSet slot equal to
the union of the Node's original ReplicaSets (same number of slots), the
result is node-consistent, and sync_network is exactly the slot-wise
application of sync_node to every Node. -/
theorem sync_node_consolidates :
    ∀ (node : Node), node ≠ [] →
      ((sync_node node).length = node.length) ∧
      (∀ m ∈ sync_node node, ∀ a : Hash, a ∈ m ↔ ∃ m0 ∈ node, a ∈ m0) ∧
      is_node_consistent (sync_node node) = some true ∧
      (∀ network : Network, sync_network network = network.map sync_node) := by
  intro node hne
  refine ⟨by simp [sync_node], ?_, ?_, ?_⟩
  · intro m hm a
    rcases List.mem_map.mp hm with ⟨m0, _, rfl⟩
    exact mem_uber_set
  · rcases node with _ | ⟨x, xs⟩
    · cases hne rfl
    · have hform : sync_node (x :: xs) =
          uber_set (x :: xs) :: xs.map (fun _ => uber_set (x :: xs)) := rfl
      rw [hform, is_node_consistent_cons]
      refine congrArg some ?_
      rw [List.all_eq_true]
      intro m hm
      rcases List.mem_cons.mp hm with rfl | hm2
      · exact mapEq_refl _
      · rcases List.mem_map.mp hm2 with ⟨m0, _, rfl⟩
        exact mapEq_refl _
  · intro network
    induction network with
    | nil => rfl
    | cons n ns ih => simp [sync_network, ih]

/-- Witness for C2 at a concrete two-slot Node. -/
theorem sync_node_consolidates_witness :
    is_node_consistent (sync_node [[List.replicate 32 0], []]) = some true :=
  (sync_node_consolidates [[List.replicate 32 0], []] (by simp)).2.2.1

/-- C9: the consistency checkers panic (modelled as none) exactly on the empty
structures their unwraps reject — an empty Node, an empty Network, or a
Network whose first Node is empty — and return a value on every other input. -/
theorem consistency_checks_panic_behavior :
    (is_node_consistent ([] : Node) = none) ∧
    (is_network_consistent ([] : Network) = none) ∧
    (∀ rest : List Node, is_network_consistent (([] : Node) :: rest) = none) ∧
    (∀ node : Node, node ≠ [] → (is_node_consistent node).isSome = true) ∧
    (∀ (n0 : Node) (rest : List Node), n0 ≠ [] →
      (is_network_consistent (n0 :: rest)).isSome = true) := by
  refine ⟨rfl, rfl, fun rest => rfl, ?_, ?_⟩
  · intro node hne
    rcases node with _ | ⟨m, ms⟩
    · cases hne rfl
    · rfl
  · intro n0 rest hne
    rcases n0 with _ | ⟨m, ms⟩
    · cases hne rfl
    · rfl

/-- Witness for C9 at concrete singleton inputs. -/
theorem consistency_checks_panic_behavior_witness :
    (is_node_consistent [[List.replicate 32 1]]).isSome = true ∧
    (is_network_consistent [[[List.replicate 32 1]]]).isSome = true :=
  ⟨consistency_checks_panic_behavior.2.2.2.1 _ (by simp),
   consistency_checks_panic_behavior.2.2.2.2 _ [] (by simp)⟩

/- ### Generation lemmas (C10) -/

theorem length_insertH_le (m : Map) (g : Hash) :
    (insertH m g).length ≤ m.length + 1 := by
  unfold insertH
  split <;> simp

theorem length_foldl_insertH_le :
    ∀ (l : List Hash) (m : Map), (l.foldl insertH m).length ≤ m.length + l.length := by
  intro l
  induction l with
  | nil => simp
  | cons g t ih =>
    intro m
    calc (List.foldl insertH m (g :: t)).length
        = (List.foldl insertH (insertH m g) t).length := by rw [List.foldl_cons]
      _ ≤ (insertH m g).length + t.length := ih _
      _ ≤ (m.length + 1) + t.length :=
          Nat.add_le_add_right (length_insertH_le m g) _
      _ = m.length + (g :: t).length := by
          simp only [List.length_cons]
          omega

theorem gen_map_eq_foldl (r : Nat → Hash) (dc : Nat) :
    gen_map r dc = ((List.range dc).map r).foldl insertH [] := by
  unfold gen_map
  rw [List.foldl_map]

theorem insertH_eq_self_of_mem {m : Map} {a : Hash} (ha : a ∈ m) :
    insertH m a = m := by
  unfold insertH
  rw [if_pos ha]

theorem foldl_insertH_middle (l1 l2 : List Hash) (m : Map) (a : Hash)
    (ha : a ∈ l1.foldl insertH m) :
    (l1 ++ a :: l2).foldl insertH m = (l1 ++ l2).foldl insertH m := by
  rw [List.foldl_append, List.foldl_append, List.foldl_cons]
  congr 1
  exact insertH_eq_self_of_mem ha

theorem gen_map_length_le (r : Nat → Hash) (dc : Nat) :
    (gen_map r dc).length ≤ dc := by
  rw [gen_map_eq_foldl]
  have := length_foldl_insertH_le ((List.range dc).map r) []
  simpa using this

theorem gen_map_dup_length_lt (r : Nat → Hash) (dc i j : Nat)
    (hij : i < j) (hj : j < dc) (hr : r i = r j) :
    (gen_map r dc).length < dc := by
  have hjlen : j < ((List.range dc).map r).length := by simpa using hj
  have hgetj : ((List.range dc).map r)[j] = r j := by simp
  have hdecomp : (List.range dc).map r =
      ((List.range dc).map r).take j ++
        r j :: ((List.range dc).map r).drop (j + 1) := by
    conv_lhs => rw [← List.take_append_drop j ((List.range dc).map r)]
    rw [List.drop_eq_getElem_cons hjlen, hgetj]
  have hmem : r j ∈ (((List.range dc).map r).take j).foldl insertH [] := by
    rw [mem_foldl_insertH]
    refine Or.inr ?_
    rw [← List.map_take, List.take_range]
    refine List.mem_map.mpr ⟨i, ?_, hr.symm ▸ rfl⟩
    simp
    omega
  have hlt : (((List.range dc).map r).take j ++
      ((List.range dc).map r).drop (j + 1)).length < dc := by
    simp only [List.length_append, List.length_take, List.length_drop,
      List.length_map, List.length_range]
    omega
  calc (gen_map r dc).length
      = ((((List.range dc).map r).take j ++
          r j :: ((List.range dc).map r).drop (j + 1)).foldl insertH []).length := by
        rw [gen_map_eq_foldl]; rw [← hdecomp]
    _ = ((((List.range dc).map r).take j ++
          ((List.range dc).map r).drop (j + 1)).foldl insertH []).length := by
        rw [foldl_insertH_middle _ _ _ _ hmem]
    _ ≤ 0 + (((List.range dc).map r).take j ++
          ((List.range dc).map r).drop (j + 1)).length :=
        length_foldl_insertH_le _ _
    _ < dc := by simpa using hlt

/-- C10: gen_network yields exactly net_fact Nodes of exactly net_fact
ReplicaSets each; every generated ReplicaSet holds at most data_count digests,
and strictly fewer as soon as the random source repeats a digest among the
data_count draws (duplicates collapse in the set). -/
theorem gen_network_shape :
    ∀ (rand : Nat → Nat → Nat → Hash) (data_count net_fact : Nat),
      ((gen_network rand data_count net_fact).length = net_fact) ∧
      (∀ node ∈ gen_network rand data_count net_fact,
        node.length = net_fact ∧ ∀ m ∈ node, m.length ≤ data_count) ∧
      (∀ (r : Nat → Hash) (dc : Nat), (gen_map r dc).length ≤ dc) ∧
      (∀ (r : Nat → Hash) (dc i j : Nat), i < j → j < dc → r i = r j →
        (gen_map r dc).length < dc) := by
  intro rand data_count net_fact
  refine ⟨by simp [gen_network], ?_, gen_map_length_le, gen_map_dup_length_lt⟩
  intro node hnode
  rcases List.mem_map.mp hnode with ⟨i, _, rfl⟩
  refine ⟨by simp [gen_node], ?_⟩
  intro m hm
  rcases List.mem_map.mp hm with ⟨i2, _, rfl⟩
  exact gen_map_length_le _ _

/-- Witness for C10: a constant random source with two draws collapses to a
single digest. -/
theorem gen_network_shape_witness :
    (gen_map (fun _ => List.replicate 32 3) 2).length < 2 :=
  (gen_network_shape (fun _ _ _ => []) 0 0).2.2.2
    (fun _ => List.replicate 32 3) 2 0 1 (by omega) (by omega) rfl

/- ### Hub protocol lemmas (C5) -/

theorem pairChain_lengths (pair : Map → Map → Map × Map × BytesTransferred) :
    ∀ (ms : List Map) (fm : Map),
      (pairChain pair ms fm).1.length = ms.length ∧
      (pairChain pair ms fm).2.2.length = ms.length := by
  intro ms
  induction ms with
  | nil => intro fm; exact ⟨rfl, rfl⟩
  | cons m mt ih =>
    intro fm
    simp only [pairChain, List.length_cons]
    exact ⟨by rw [(ih _).1], by rw [(ih _).2]⟩

theorem syncOthersAux_eq_pairChain (pair : Map → Map → Map × Map × BytesTransferred) :
    ∀ (rest : List Node) (fm : Map), (∀ node ∈ rest, node ≠ []) →
      syncOthersAux pair rest fm =
        some (List.zipWith (fun m node => m :: node.tail)
                (pairChain pair (rest.map List.headI) fm).1 rest,
              (pairChain pair (rest.map List.headI) fm).2.1,
              ((pairChain pair (rest.map List.headI) fm).2.2).sum) := by
  intro rest
  induction rest with
  | nil => intro fm _; rfl
  | cons node ns ih =>
    intro fm hne
    rcases hnode : node with _ | ⟨m, mt⟩
    · exact absurd rfl (hnode ▸ hne node (by simp [hnode]))
    · simp only [syncOthersAux]
      rw [ih _ (fun n hn => hne n (List.mem_cons_of_mem _ hn))]
      simp only [pairChain, List.map_cons, List.headI, List.zipWith,
        List.sum_cons, List.tail_cons]

/-- The shared hub-protocol shape for any pairwise sync: on a network whose
nodes are all non-empty, the first node is removed, the chain of pairwise
calls runs on the first maps of the remaining nodes with the hub map threaded
on the right, every other map is untouched, the hub node is re-appended at
the end with its tail unchanged, and the total cost is the sum of the
pairwise costs. -/
theorem sync_first_map_to_others_eq
    (pair : Map → Map → Map × Map × BytesTransferred) (n0 : Node)
    (rest : List Node) (h0 : n0 ≠ []) (hrest : ∀ node ∈ rest, node ≠ []) :
    sync_first_map_to_others pair (n0 :: rest) =
      some (List.zipWith (fun m node => m :: node.tail)
              (pairChain pair (rest.map List.headI) n0.headI).1 rest
            ++ [(pairChain pair (rest.map List.headI) n0.headI).2.1 :: n0.tail],
            ((pairChain pair (rest.map List.headI) n0.headI).2.2).sum) := by
  rcases n0 with _ | ⟨fm, fnTail⟩
  · cases h0 rfl
  · simp only [sync_first_map_to_others]
    rw [syncOthersAux_eq_pairChain pair rest fm hrest]
    simp only [List.headI, List.tail_cons]

set_option maxHeartbeats 1000000 in
/-- C5: both network-level reconcilers follow the hub protocol — for a
non-empty Network of non-empty Nodes, the hub (first Node) is removed, every
remaining Node's first ReplicaSet is reconciled against the hub's first
ReplicaSet with the hub on the right-hand side of each pairwise call, the
returned byte cost is the sum of the pairwise costs (one pairwise call per
remaining Node), all other ReplicaSets are unchanged, and the hub Node is
reinserted at the end, so the Network keeps the same Nodes with only the
hub's position moved. -/
theorem hub_protocol_shape :
    ∀ (genBloom : Map → BloomModel) (n0 : Node) (rest : List Node),
      n0 ≠ [] → (∀ node ∈ rest, node ≠ []) →
      (bloom_filter_sync_first_map_to_others genBloom (n0 :: rest) =
        some (List.zipWith (fun m node => m :: node.tail)
                (pairChain (bloom_filter_sync_two_maps genBloom)
                  (rest.map List.headI) n0.headI).1 rest
              ++ [(pairChain (bloom_filter_sync_two_maps genBloom)
                    (rest.map List.headI) n0.headI).2.1 :: n0.tail],
              ((pairChain (bloom_filter_sync_two_maps genBloom)
                 (rest.map List.headI) n0.headI).2.2).sum)) ∧
      (rehash_filter_sync_first_map_to_others (n0 :: rest) =
        some (List.zipWith (fun m node => m :: node.tail)
                (pairChain rehash_filter_sync_two_maps
                  (rest.map List.headI) n0.headI).1 rest
              ++ [(pairChain rehash_filter_sync_two_maps
                    (rest.map List.headI) n0.headI).2.1 :: n0.tail],
              ((pairChain rehash_filter_sync_two_maps
                 (rest.map List.headI) n0.headI).2.2).sum)) ∧
      ((pairChain rehash_filter_sync_two_maps
         (rest.map List.headI) n0.headI).2.2.length = rest.length) ∧
      ((pairChain (bloom_filter_sync_two_maps genBloom)
         (rest.map List.headI) n0.headI).2.2.length = rest.length) := by
  intro genBloom n0 rest h0 hrest
  refine ⟨sync_first_map_to_others_eq _ n0 rest h0 hrest,
          sync_first_map_to_others_eq _ n0 rest h0 hrest, ?_, ?_⟩
  · rw [(pairChain_lengths _ _ _).2]
    simp
  · rw [(pairChain_lengths _ _ _).2]
    simp

set_option maxRecDepth 4000 in
/-- Witness for C5: two single-slot nodes holding empty ReplicaSets under the
digest reconciler; the hub moves to the end and 64 bytes are charged. -/
theorem hub_protocol_shape_witness :
    rehash_filter_sync_first_map_to_others [[[]], [[]]] = some ([[[]], [[]]], 64) :=
  ((hub_protocol_shape (fun _ => ⟨fun _ => true, 0⟩) [[]] [[[]]]
      (by simp) (by simp)).2.1).trans (by decide)

/- ### Cost characterization of the transfer loops (C3, C4, C6) -/

/-- The decidable absence test used to describe which items a transfer loop
actually moves. -/
def notMem (m : Map) : Hash → Bool := fun h => decide (h ∉ m)

theorem sum_map_length_const (l : List Hash) (hl : ∀ h ∈ l, h.length = 32) :
    (l.map List.length).sum = 32 * l.length := by
  induction l with
  | nil => simp
  | cons g t ih =>
    simp only [List.map_cons, List.sum_cons, List.length_cons]
    rw [hl g (by simp), ih (fun h hh => hl h (by simp [hh]))]
    ring

theorem foldl_insertMissingStep_noop :
    ∀ (l : List Hash) (m : Map) (c : Nat), (∀ h ∈ l, h ∈ m) →
      l.foldl insertMissingStep (m, c) = (m, c) := by
  intro l
  induction l with
  | nil => intro m c _; rfl
  | cons g t ih =>
    intro m c hsub
    simp only [List.foldl_cons, insertMissingStep]
    rw [if_pos (hsub g (by simp))]
    exact ih m c (fun h hh => hsub h (by simp [hh]))

theorem foldl_insertMissingStep_eq :
    ∀ (l : List Hash) (m : Map) (c : Nat), l.Nodup →
      l.foldl insertMissingStep (m, c) =
        (m ++ l.filter (notMem m),
         c + ((l.filter (notMem m)).map List.length).sum) := by
  intro l
  induction l with
  | nil => intro m c _; simp
  | cons g t ih =>
    intro m c hnd
    have hg_t : g ∉ t := (List.nodup_cons.mp hnd).1
    have htnd : t.Nodup := (List.nodup_cons.mp hnd).2
    simp only [List.foldl_cons, insertMissingStep]
    by_cases hg : g ∈ m
    · rw [if_pos hg, ih m c htnd]
      have hfil : (g :: t).filter (notMem m) = t.filter (notMem m) := by
        rw [List.filter_cons]
        have hng : notMem m g = false := by simp [notMem, hg]
        simp [hng]
      rw [hfil]
    · rw [if_neg hg, ih (m ++ [g]) (c + g.length) htnd]
      have hfilt : t.filter (notMem (m ++ [g])) = t.filter (notMem m) := by
        apply List.filter_congr
        intro a ha
        have hag : a ≠ g := fun e => hg_t (e ▸ ha)
        simp [notMem, List.mem_append, hag]
      have hfilc : (g :: t).filter (notMem m) = g :: t.filter (notMem m) := by
        rw [List.filter_cons]
        have hng : notMem m g = true := by simp [notMem, hg]
        simp [hng]
      rw [hfilt, hfilc]
      simp only [Prod.mk.injEq]
      constructor
      · rw [List.append_assoc]
        rfl
      · simp only [List.map_cons, List.sum_cons]
        omega

theorem foldl_insertCheckStep_eq (c : Hash → Bool) :
    ∀ (l : List Hash) (m : Map) (b : Nat), l.Nodup →
      (∀ h ∈ l, c h = false → h ∉ m) →
      l.foldl (insertCheckStep c) (m, b) =
        (m ++ l.filter (fun h => !c h),
         b + ((l.filter (fun h => !c h)).map List.length).sum) := by
  intro l
  induction l with
  | nil => intro m b _ _; simp
  | cons g t ih =>
    intro m b hnd hmem
    have hg_t : g ∉ t := (List.nodup_cons.mp hnd).1
    have htnd : t.Nodup := (List.nodup_cons.mp hnd).2
    simp only [List.foldl_cons, insertCheckStep]
    by_cases hc : c g = true
    · rw [if_pos hc, ih m b htnd (fun h hh hch => hmem h (by simp [hh]) hch)]
      have hfil : (g :: t).filter (fun h => !c h) = t.filter (fun h => !c h) := by
        rw [List.filter_cons]
        simp [hc]
      rw [hfil]
    · have hcf : c g = false := by simpa using hc
      have hgm : g ∉ m := hmem g (by simp) hcf
      rw [if_neg hc]
      rw [show insertH m g = m ++ [g] from by unfold insertH; rw [if_neg hgm]]
      rw [ih (m ++ [g]) (b + g.length) htnd ?hmem2]
      case hmem2 =>
        intro h hh hch
        have : h ∉ m := hmem h (by simp [hh]) hch
        have hag : h ≠ g := fun e => hg_t (e ▸ hh)
        simp [List.mem_append, this, hag]
      have hfilc : (g :: t).filter (fun h => !c h) =
          g :: t.filter (fun h => !c h) := by
        rw [List.filter_cons]
        simp [hcf]
      rw [hfilc]
      simp only [Prod.mk.injEq]
      constructor
      · rw [List.append_assoc]
        rfl
      · simp only [List.map_cons, List.sum_cons]
        omega

theorem nodup_append_filter_notMem {map2 map1 : Map} (h2nd : map2.Nodup)
    (h1nd : map1.Nodup) : (map2 ++ map1.filter (notMem map2)).Nodup := by
  rw [List.nodup_append]
  refine ⟨h2nd, h1nd.filter _, ?_⟩
  intro a ha haf
  have := (List.mem_filter.mp haf).2
  simp only [notMem, decide_eq_true_eq] at this
  exact this ha

theorem filter_append_notMem_left (m F : Map)
    (hF : ∀ h ∈ F, notMem m h = true) :
    (m ++ F).filter (notMem m) = F := by
  rw [List.filter_append]
  have h0 : m.filter (notMem m) = [] := by
    rw [List.filter_eq_nil_iff]
    intro a ha
    simp [notMem, ha]
  have h1 : F.filter (notMem m) = F := List.filter_eq_self.mpr hF
  rw [h0, h1, List.nil_append]

/-- C4 (amended): when the aggregate digests differ, the digest reconciler
charges the fixed 64 bytes, plus 32 bytes per item of the FIRST side's item
list only, plus 32 bytes per item actually transmitted in either direction
(the items present on one side and absent from the other). -/
theorem rehash_differing_digest_cost (map1 map2 : Map)
    (hne : hash_of_hashes map1 ≠ hash_of_hashes map2)
    (h1len : ∀ h ∈ map1, h.length = 32) (h2len : ∀ h ∈ map2, h.length = 32)
    (h1nd : map1.Nodup) (h2nd : map2.Nodup) :
    (rehash_filter_sync_two_maps map1 map2).2.2 =
      32 + 32 + 32 * map1.length +
      32 * ((rehash_filter_sync_two_maps map1 map2).2.1.filter
             (notMem map2)).length +
      32 * ((rehash_filter_sync_two_maps map1 map2).1.filter
             (notMem map1)).length := by
  have hndF1 : (map2 ++ map1.filter (notMem map2)).Nodup :=
    nodup_append_filter_notMem h2nd h1nd
  have hr : rehash_filter_sync_two_maps map1 map2 =
      (map1 ++ (map2 ++ map1.filter (notMem map2)).filter (notMem map1),
       map2 ++ map1.filter (notMem map2),
       32 + 32 + map1.length * 32 +
         (0 + ((map1.filter (notMem map2)).map List.length).sum) +
         (0 + (((map2 ++ map1.filter (notMem map2)).filter
             (notMem map1)).map List.length).sum)) := by
    unfold rehash_filter_sync_two_maps
    rw [if_neg hne]
    dsimp only
    rw [foldl_insertMissingStep_eq map1 map2 0 h1nd]
    dsimp only
    rw [foldl_insertMissingStep_eq _ map1 0 hndF1]
  rw [hr]
  dsimp only
  have e1 : (map2 ++ map1.filter (notMem map2)).filter (notMem map2) =
      map1.filter (notMem map2) :=
    filter_append_notMem_left _ _ (fun h hh => (List.mem_filter.mp hh).2)
  have e2 : (map1 ++ (map2 ++ map1.filter (notMem map2)).filter
      (notMem map1)).filter (notMem map1) =
      (map2 ++ map1.filter (notMem map2)).filter (notMem map1) :=
    filter_append_notMem_left _ _ (fun h hh => (List.mem_filter.mp hh).2)
  rw [e1, e2]
  have s1 : ((map1.filter (notMem map2)).map List.length).sum =
      32 * (map1.filter (notMem map2)).length :=
    sum_map_length_const _ (fun h hh => h1len h (List.mem_filter.mp hh).1)
  have s2 : (((map2 ++ map1.filter (notMem map2)).filter
      (notMem map1)).map List.length).sum =
      32 * ((map2 ++ map1.filter (notMem map2)).filter (notMem map1)).length := by
    refine sum_map_length_const _ (fun h hh => ?_)
    have hmem := (List.mem_filter.mp hh).1
    rcases List.mem_append.mp hmem with h2 | h1
    · exact h2len h h2
    · exact h1len h (List.mem_filter.mp h1).1
  rw [s1, s2]
  ring

set_option maxRecDepth 4000 in
/-- Counterexample for C4 as stated: with map1 empty and map2 holding one
digest, the digests differ but the code returns 96 bytes, not the claimed
64 + 32 per item of each side's list + 32 per transmitted item = 128. -/
theorem rehash_cost_claim_counterexample :
    (rehash_filter_sync_two_maps [] [List.replicate 32 0]).2.2 ≠
      32 + 32 +
      32 * (([] : Map).length + ([List.replicate 32 0] : Map).length) +
      32 * (((rehash_filter_sync_two_maps [] [List.replicate 32 0]).2.1.filter
              (notMem [List.replicate 32 0])).length +
            ((rehash_filter_sync_two_maps [] [List.replicate 32 0]).1.filter
              (notMem [])).length) := by decide

set_option maxRecDepth 4000 in
/-- Witness for the amended C4: two singleton sets with distinct digests cost
64 + 32 (side 1 list) + 32 + 32 (one transfer each way) = 160 bytes. -/
theorem rehash_differing_digest_cost_witness :
    (rehash_filter_sync_two_maps [List.replicate 32 0]
       [List.replicate 32 1]).2.2 = 160 :=
  (rehash_differing_digest_cost [List.replicate 32 0] [List.replicate 32 1]
     (by decide) (by decide) (by decide) (by decide) (by decide)).trans
    (by decide)

/-- C3 (amended): on two ReplicaSets with identical contents the digest
reconciler leaves both sets unchanged in every case; it computes equal
aggregate digests and returns exactly the 64 digest-comparison bytes when the
two sets iterate in the same order (equal as sequences), while with identical
contents in different iteration orders the aggregate digests may differ, in
which case 64 + 32 per item of the first set is charged — still with no items
exchanged. -/
theorem rehash_identical_contents (map1 map2 : Map)
    (hsame : ∀ h : Hash, h ∈ map1 ↔ h ∈ map2) :
    (rehash_filter_sync_two_maps map1 map2).1 = map1 ∧
    (rehash_filter_sync_two_maps map1 map2).2.1 = map2 ∧
    (map1 = map2 → (rehash_filter_sync_two_maps map1 map2).2.2 = 32 + 32) ∧
    (hash_of_hashes map1 ≠ hash_of_hashes map2 →
      (rehash_filter_sync_two_maps map1 map2).2.2 =
        32 + 32 + 32 * map1.length) := by
  by_cases heq : hash_of_hashes map1 = hash_of_hashes map2
  · have hr : rehash_filter_sync_two_maps map1 map2 = (map1, map2, 32 + 32) := by
      unfold rehash_filter_sync_two_maps
      rw [if_pos heq]
    rw [hr]
    exact ⟨rfl, rfl, fun _ => rfl, fun hne => absurd heq hne⟩
  · have hr : rehash_filter_sync_two_maps map1 map2 =
        (map1, map2, 32 + 32 + map1.length * 32 + 0 + 0) := by
      unfold rehash_filter_sync_two_maps
      rw [if_neg heq]
      dsimp only
      rw [foldl_insertMissingStep_noop map1 map2 0 (fun h hh => (hsame h).mp hh)]
      dsimp only
      rw [foldl_insertMissingStep_noop map2 map1 0 (fun h hh => (hsame h).mpr hh)]
    rw [hr]
    refine ⟨rfl, rfl, fun h12 => absurd (by rw [h12]) heq, fun _ => ?_⟩
    dsimp only
    ring

set_option maxRecDepth 4000 in
/-- Counterexample for C3 as stated: two ReplicaSets with identical contents
but opposite iteration orders yield different aggregate digests, and the call
returns 128 bytes instead of the claimed 64. -/
theorem rehash_fast_path_counterexample :
    List.Perm ([List.replicate 32 0, List.replicate 32 1] : Map)
      ([List.replicate 32 1, List.replicate 32 0] : Map) ∧
    hash_of_hashes [List.replicate 32 0, List.replicate 32 1] ≠
      hash_of_hashes [List.replicate 32 1, List.replicate 32 0] ∧
    (rehash_filter_sync_two_maps [List.replicate 32 0, List.replicate 32 1]
       [List.replicate 32 1, List.replicate 32 0]).2.2 ≠ 32 + 32 :=
  ⟨List.Perm.swap _ _ _, by decide, by decide⟩

set_option maxRecDepth 4000 in
/-- Witness for the amended C3: identical singleton sets in identical order
cost exactly the 64 comparison bytes. -/
theorem rehash_identical_contents_witness :
    (rehash_filter_sync_two_maps [List.replicate 32 2]
       [List.replicate 32 2]).2.2 = 32 + 32 :=
  (rehash_identical_contents [List.replicate 32 2] [List.replicate 32 2]
     (fun _ => Iff.rfl)).2.2.1 rfl

set_option maxHeartbeats 1000000 in
/-- C6: for well-formed duplicate-free ReplicaSets and any filter pair with no
false negatives (as bloom filters guarantee), the byte cost of
bloom_filter_sync_two_maps is 32 bytes per item actually transmitted in
either direction (the items inserted on the opposite side, each present on
one side and absent from the other) plus, per filter, the fixed 44-byte
overhead (8 bitmap-length + 4 hash-count + 32 sip keys) plus that filter's
bitmap byte length. -/
theorem bloom_sync_cost (genBloom : Map → BloomModel) (map1 map2 : Map)
    (h1len : ∀ h ∈ map1, h.length = 32) (h2len : ∀ h ∈ map2, h.length = 32)
    (h1nd : map1.Nodup) (h2nd : map2.Nodup)
    (hnfn1 : ∀ h ∈ map1, (genBloom map1).check h = true)
    (hnfn2 : ∀ h ∈ map2, (genBloom map2).check h = true) :
    BLOOM_OVERHEAD = 8 + 4 + 32 ∧
    (bloom_filter_sync_two_maps genBloom map1 map2).2.2 =
      32 * (((bloom_filter_sync_two_maps genBloom map1 map2).2.1.filter
              (notMem map2)).length +
            ((bloom_filter_sync_two_maps genBloom map1 map2).1.filter
              (notMem map1)).length) +
      (BLOOM_OVERHEAD + (genBloom map1).bitmapLen) +
      (BLOOM_OVERHEAD + (genBloom map2).bitmapLen) ∧
    (∀ h ∈ (bloom_filter_sync_two_maps genBloom map1 map2).2.1.filter
        (notMem map2), h ∈ map1 ∧ h ∉ map2) ∧
    (∀ h ∈ (bloom_filter_sync_two_maps genBloom map1 map2).1.filter
        (notMem map1),
      h ∈ (bloom_filter_sync_two_maps genBloom map1 map2).2.1 ∧ h ∉ map1) := by
  have habs2 : ∀ h ∈ map1, (genBloom map2).check h = false → h ∉ map2 :=
    fun h _ hf hm => by rw [hnfn2 h hm] at hf; cases hf
  have hF1nd : (map2 ++ map1.filter
      (fun h => !(genBloom map2).check h)).Nodup := by
    rw [List.nodup_append]
    refine ⟨h2nd, h1nd.filter _, ?_⟩
    intro a ha haf
    rcases List.mem_filter.mp haf with ⟨ha1, hc⟩
    exact habs2 a ha1 (by simpa using hc) ha
  have habs1 : ∀ h ∈ map2 ++ map1.filter (fun h => !(genBloom map2).check h),
      (genBloom map1).check h = false → h ∉ map1 :=
    fun h _ hf hm => by rw [hnfn1 h hm] at hf; cases hf
  have hr : bloom_filter_sync_two_maps genBloom map1 map2 =
      (map1 ++ (map2 ++ map1.filter (fun h => !(genBloom map2).check h)).filter
         (fun h => !(genBloom map1).check h),
       map2 ++ map1.filter (fun h => !(genBloom map2).check h),
       (0 + ((map1.filter (fun h => !(genBloom map2).check h)).map
          List.length).sum) +
       (0 + (((map2 ++ map1.filter (fun h => !(genBloom map2).check h)).filter
          (fun h => !(genBloom map1).check h)).map List.length).sum) +
       (BLOOM_OVERHEAD + (genBloom map1).bitmapLen) +
       (BLOOM_OVERHEAD + (genBloom map2).bitmapLen)) := by
    unfold bloom_filter_sync_two_maps
    dsimp only
    rw [foldl_insertCheckStep_eq _ map1 map2 0 h1nd habs2]
    dsimp only
    rw [foldl_insertCheckStep_eq _ _ map1 0 hF1nd habs1]
  rw [hr]
  dsimp only
  have e1 : (map2 ++ map1.filter (fun h => !(genBloom map2).check h)).filter
      (notMem map2) = map1.filter (fun h => !(genBloom map2).check h) := by
    refine filter_append_notMem_left _ _ (fun h hh => ?_)
    rcases List.mem_filter.mp hh with ⟨h1, hc⟩
    simp [notMem, habs2 h h1 (by simpa using hc)]
  have e2 : (map1 ++ (map2 ++ map1.filter
      (fun h => !(genBloom map2).check h)).filter
        (fun h => !(genBloom map1).check h)).filter (notMem map1) =
      (map2 ++ map1.filter (fun h => !(genBloom map2).check h)).filter
        (fun h => !(genBloom map1).check h) := by
    refine filter_append_notMem_left _ _ (fun h hh => ?_)
    rcases List.mem_filter.mp hh with ⟨h1, hc⟩
    simp [notMem, habs1 h h1 (by simpa using hc)]
  rw [e1, e2]
  have s1 : ((map1.filter (fun h => !(genBloom map2).check h)).map
      List.length).sum =
      32 * (map1.filter (fun h => !(genBloom map2).check h)).length :=
    sum_map_length_const _ (fun h hh => h1len h (List.mem_filter.mp hh).1)
  have s2 : (((map2 ++ map1.filter (fun h => !(genBloom map2).check h)).filter
      (fun h => !(genBloom map1).check h)).map List.length).sum =
      32 * ((map2 ++ map1.filter (fun h => !(genBloom map2).check h)).filter
        (fun h => !(genBloom map1).check h)).length := by
    refine sum_map_length_const _ (fun h hh => ?_)
    rcases List.mem_append.mp (List.mem_filter.mp hh).1 with h2 | h1
    · exact h2len h h2
    · exact h1len h (List.mem_filter.mp h1).1
  refine ⟨rfl, by rw [s1, s2]; ring, ?_, ?_⟩
  · intro h hh
    rcases List.mem_filter.mp hh with ⟨h1, hc⟩
    exact ⟨h1, habs2 h h1 (by simpa using hc)⟩
  · intro h hh
    rcases List.mem_filter.mp hh with ⟨h1, hc⟩
    exact ⟨h1, habs1 h h1 (by simpa using hc)⟩

/- ### test_run prologue lemmas (C8) -/

theorem consolidate_nodes_none_of_consistent :
    ∀ (net : Network) (node : Node), node ∈ net →
      is_node_consistent node = some true → consolidate_nodes net = none := by
  intro net
  induction net with
  | nil => intro node h; cases h
  | cons n ns ih =>
    intro node hmem hcons
    simp only [consolidate_nodes]
    cases hn : is_node_consistent n with
    | none => rfl
    | some b =>
      cases b with
      | true => rfl
      | false =>
        rcases List.mem_cons.mp hmem with rfl | hmem2
        · rw [hn] at hcons; cases hcons
        · cases hs : is_node_consistent (sync_node n) with
          | none => rfl
          | some b2 =>
            cases b2 with
            | false => rfl
            | true => rw [ih node hmem2 hcons]

theorem consolidate_nodes_none_of_sync_fail :
    ∀ (net : Network) (node : Node), node ∈ net →
      is_node_consistent (sync_node node) ≠ some true →
      consolidate_nodes net = none := by
  intro net
  induction net with
  | nil => intro node h; cases h
  | cons n ns ih =>
    intro node hmem hsync
    simp only [consolidate_nodes]
    cases hn : is_node_consistent n with
    | none => rfl
    | some b =>
      cases b with
      | true => rfl
      | false =>
        cases hs : is_node_consistent (sync_node n) with
        | none => rfl
        | some b2 =>
          cases b2 with
          | false => rfl
          | true =>
            rcases List.mem_cons.mp hmem with rfl | hmem2
            · exact absurd hs hsync
            · rw [ih node hmem2 hsync]

theorem consolidate_nodes_some_consistent :
    ∀ (net net2 : Network), consolidate_nodes net = some net2 →
      ∀ node ∈ net2, is_node_consistent node = some true := by
  intro net
  induction net with
  | nil =>
    intro net2 hcons node hmem
    simp only [consolidate_nodes] at hcons
    cases hcons
    cases hmem
  | cons n ns ih =>
    intro net2 hcons node hmem
    simp only [consolidate_nodes] at hcons
    cases hn : is_node_consistent n with
    | none => rw [hn] at hcons; cases hcons
    | some b =>
      rw [hn] at hcons
      cases b with
      | true => cases hcons
      | false =>
        cases hs : is_node_consistent (sync_node n) with
        | none => rw [hs] at hcons; cases hcons
        | some b2 =>
          rw [hs] at hcons
          cases b2 with
          | false => cases hcons
          | true =>
            cases hrest : consolidate_nodes ns with
            | none => rw [hrest] at hcons; cases hcons
            | some rest2 =>
              rw [hrest] at hcons
              cases hcons
              rcases List.mem_cons.mp hmem with rfl | hmem2
              · exact hs
              · exact ih rest2 hrest node hmem2

/-- C8: the prologue of test_run aborts (none) whenever the fresh Network is
already consistent, or some Node is already consistent before consolidation,
or some Node is not consistent after consolidation, or the Network is
consistent after per-node consolidation; and whenever the prologue succeeds,
every Node of the produced Network is node-consistent and the Network as a
whole is network-inconsistent. -/
theorem test_run_setup_invariants :
    ∀ network : Network,
      (is_network_consistent network = some true →
        test_run_setup network = none) ∧
      (∀ node, node ∈ network → is_node_consistent node = some true →
        test_run_setup network = none) ∧
      (∀ node, node ∈ network →
        is_node_consistent (sync_node node) ≠ some true →
        test_run_setup network = none) ∧
      (∀ net2, consolidate_nodes network = some net2 →
        is_network_consistent net2 = some true →
        test_run_setup network = none) ∧
      (∀ net2, test_run_setup network = some net2 →
        (∀ node, node ∈ net2 → is_node_consistent node = some true) ∧
        is_network_consistent net2 = some false) := by
  intro network
  refine ⟨?_, ?_, ?_, ?_, ?_⟩
  · intro hc
    simp only [test_run_setup, hc]
  · intro node hmem hcons
    simp only [test_run_setup]
    cases hnet : is_network_consistent network with
    | none => rfl
    | some b =>
      cases b with
      | true => rfl
      | false => rw [consolidate_nodes_none_of_consistent network node hmem hcons]
  · intro node hmem hsync
    simp only [test_run_setup]
    cases hnet : is_network_consistent network with
    | none => rfl
    | some b =>
      cases b with
      | true => rfl
      | false => rw [consolidate_nodes_none_of_sync_fail network node hmem hsync]
  · intro net2 hcons hc2
    simp only [test_run_setup]
    cases hnet : is_network_consistent network with
    | none => rfl
    | some b =>
      cases b with
      | true => rfl
      | false =>
        dsimp only
        rw [hcons]
        dsimp only
        rw [hc2]
  · intro net2 hsetup
    simp only [test_run_setup] at hsetup
    cases hnet : is_network_consistent network with
    | none => rw [hnet] at hsetup; cases hsetup
    | some b =>
      rw [hnet] at hsetup
      cases b with
      | true => cases hsetup
      | false =>
        dsimp only at hsetup
        cases hcons : consolidate_nodes network with
        | none => rw [hcons] at hsetup; cases hsetup
        | some n2 =>
          rw [hcons] at hsetup
          dsimp only at hsetup
          cases hc2 : is_network_consistent n2 with
          | none => rw [hc2] at hsetup; cases hsetup
          | some b2 =>
            rw [hc2] at hsetup
            cases b2 with
            | true => cases hsetup
            | false =>
              cases hsetup
              exact ⟨consolidate_nodes_some_consistent network _ hcons, hc2⟩

/-- Witness for C8: a one-node Network that is already consistent makes the
prologue abort. -/
theorem test_run_setup_invariants_witness :
    test_run_setup [[[List.replicate 32 5]]] = none :=
  (test_run_setup_invariants [[[List.replicate 32 5]]]).1 (by decide)

set_option maxRecDepth 4000 in
/-- Witness for C6: singleton sets with distinct digests under a perfect
membership filter of bitmap length 7 cost 32 + 32 + (44 + 7) + (44 + 7). -/
theorem bloom_sync_cost_witness :
    (bloom_filter_sync_two_maps (fun m => ⟨fun h => decide (h ∈ m), 7⟩)
       [List.replicate 32 0] [List.replicate 32 1]).2.2 = 166 :=
  ((bloom_sync_cost (fun m => ⟨fun h => decide (h ∈ m), 7⟩)
      [List.replicate 32 0] [List.replicate 32 1] (by decide) (by decide)
      (by decide) (by decide) (by decide) (by decide)).2.1).trans (by decide)

/- ### Convergence loop lemmas (C7) -/

theorem run_loop_exit (shuffleO : Nat → Network → Network)
    (syncFn : Network → Option (Network × BytesTransferred)) :
    ∀ (fuel count byteTx : Nat) (net : Network) (c b : Nat) (net' : Network),
      run_loop shuffleO syncFn fuel count byteTx net = some (c, b, net') →
      is_network_consistent net' = some true ∧ count + 1 ≤ c := by
  intro fuel
  induction fuel with
  | zero => intro count byteTx net c b net' h; cases h
  | succ f ih =>
    intro count byteTx net c b net' h
    simp only [run_loop] at h
    cases hsf : syncFn (shuffleO (count + 1) net) with
    | none => rw [hsf] at h; cases h
    | some p =>
      obtain ⟨net2, b2⟩ := p
      rw [hsf] at h
      dsimp only at h
      cases hc : is_network_consistent (sync_network net2) with
      | none => rw [hc] at h; cases h
      | some bb =>
        rw [hc] at h
        cases bb with
        | true =>
          dsimp only at h
          cases h
          exact ⟨hc, Nat.le_refl _⟩
        | false =>
          dsimp only at h
          have hr := ih (count + 1) (byteTx + b2) (sync_network net2) c b net' h
          exact ⟨hr.1, by omega⟩

/-- C7: each round of the convergence loop applies, in order, the shuffle
oracle, the selected network sync function (its byte cost added to the
running total), network-wide consolidation, and the consistency check, and
the loop exits exactly on a positive check; hence whenever test_run returns,
its final Network is network-consistent and its round count is at least 1. -/
theorem test_run_round_discipline :
    (∀ (shuffleO : Nat → Network → Network)
       (syncFn : Network → Option (Network × BytesTransferred))
       (fuel count byteTx : Nat) (net : Network),
      run_loop shuffleO syncFn (fuel + 1) count byteTx net =
        match syncFn (shuffleO (count + 1) net) with
        | none => none
        | some (net2, b) =>
          match is_network_consistent (sync_network net2) with
          | none => none
          | some true => some (count + 1, byteTx + b, sync_network net2)
          | some false =>
            run_loop shuffleO syncFn fuel (count + 1) (byteTx + b)
              (sync_network net2)) ∧
    (∀ (shuffleO : Nat → Network → Network)
       (syncFn : Network → Option (Network × BytesTransferred))
       (fuel count byteTx : Nat) (net : Network) (c b : Nat) (net' : Network),
      run_loop shuffleO syncFn fuel count byteTx net = some (c, b, net') →
      is_network_consistent net' = some true ∧ count + 1 ≤ c) ∧
    (∀ (network : Network) (shuffleO : Nat → Network → Network)
       (syncFn : Network → Option (Network × BytesTransferred))
       (fuel c b : Nat) (net' : Network),
      test_run network shuffleO syncFn fuel = some (c, b, net') →
      is_network_consistent net' = some true ∧ 1 ≤ c) := by
  refine ⟨fun _ _ _ _ _ _ => rfl, run_loop_exit, ?_⟩
  intro network shuffleO syncFn fuel c b net' h
  simp only [test_run] at h
  cases hsetup : test_run_setup network with
  | none => rw [hsetup] at h; cases h
  | some n2 =>
    rw [hsetup] at h
    dsimp only at h
    have hr := run_loop_exit shuffleO syncFn fuel 0 0 n2 c b net' h
    exact ⟨hr.1, by omega⟩

/-- The concrete starting Network used to witness C7. -/
def c7net : Network :=
  [[[List.replicate 32 0], []], [[List.replicate 32 1], []]]

/-- The Network in which the witness run of C7 terminates. -/
def c7final : Network :=
  [[[List.replicate 32 1, List.replicate 32 0],
    [List.replicate 32 1, List.replicate 32 0]],
   [[List.replicate 32 0, List.replicate 32 1],
    [List.replicate 32 0, List.replicate 32 1]]]

set_option maxRecDepth 8000 in
/-- Witness for C7: a two-node run of the digest reconciler converges in one
round of 160 bytes and ends network-consistent. -/
theorem test_run_round_discipline_witness :
    is_network_consistent c7final = some true ∧ 1 ≤ 1 :=
  test_run_round_discipline.2.2 c7net (fun _ n => n)
    rehash_filter_sync_first_map_to_others 1 1 160 c7final (by decide)
